import Mathlib

/-!
Verification of the caption-generation utilities
(`frontend/src/utils/captionUtils.js`) and of the transcription
request coordinator described by the repository's specification.

The JavaScript functions are translated shallowly: JavaScript strings
become Lean `String`s, JavaScript numbers holding integer millisecond
values become `Int` (with `Math.floor` division as `Int.fdiv` and the
`%` remainder operator as `Int.tmod`, matching JavaScript's truncated
remainder), and the mutable `forEach` loops become structural
recursions over the word list carrying an explicit state record.
-/

namespace Captions

/-- One recognized word with its timing, as consumed by
`generateSRT`/`generateVTT` (the `confidence` field of the JavaScript
objects is never read by the caption code and is omitted). -/
structure Word where
  text : String
  start : Int
  «end» : Int
deriving DecidableEq

/-- Models JavaScript `String.prototype.trim` on the character list:
drop whitespace from the front, then from the back. -/
def trimChars (l : List Char) : List Char :=
  ((l.dropWhile Char.isWhitespace).reverse.dropWhile Char.isWhitespace).reverse

/-- Models JavaScript `String.prototype.trim`. -/
def jsTrim (s : String) : String :=
  String.mk (trimChars s.data)

/-- Models JavaScript `String.prototype.padStart(n, '0')`. -/
def padZero (s : String) (n : Nat) : String :=
  String.mk (List.replicate (n - s.length) '0') ++ s

/-- Translation of `formatCaptionTime(milliseconds, format)`.
`Math.floor(a / b)` is `Int.fdiv`, the JavaScript `%` is `Int.tmod`. -/
def formatCaptionTime (milliseconds : Int) (format : String) : String :=
  let totalSeconds := Int.fdiv milliseconds 1000
  let ms := Int.tmod milliseconds 1000
  let hours := Int.fdiv totalSeconds 3600
  let minutes := Int.fdiv (Int.tmod totalSeconds 3600) 60
  let seconds := Int.tmod totalSeconds 60
  let timeString := padZero (toString hours) 2 ++ ":" ++ padZero (toString minutes) 2
    ++ ":" ++ padZero (toString seconds) 2
  if format = "srt" then
    timeString ++ "," ++ padZero (toString ms) 3
  else
    timeString ++ "." ++ padZero (toString ms) 3

/-- Translation of the regular-expression test `/[.!?]$/.test(s)`:
JavaScript `$` without the `m` flag anchors at the very end of the
string, so the test holds exactly when the last character is `.`,
`!` or `?`. -/
def endsSentence (s : String) : Bool :=
  match s.data.getLast? with
  | some c => c = '.' || c = '!' || c = '?'
  | none => false

/-- The `maxCaptionLength` constant of both generators (characters per caption). -/
def maxCaptionLength : Nat := 80

/-- The `maxCaptionDuration` constant of both generators (milliseconds per caption). -/
def maxCaptionDuration : Int := 5000

/-- The break decision shared verbatim by `generateSRT` and `generateVTT`:
`currentCaption.length >= maxCaptionLength || (captionEnd - captionStart) >=
maxCaptionDuration || index === words.length - 1 || /[.!?]$/.test(word.text)`. -/
def shouldBreakAt (cap : String) (s e : Int) (w : Word) (isLast : Bool) : Bool :=
  decide (maxCaptionLength ≤ cap.length) ||
  decide (maxCaptionDuration ≤ e - s) ||
  isLast ||
  endsSentence w.text

/-- The mutable state of the `generateSRT` loop. -/
structure SrtState where
  srtContent : String
  captionIndex : Nat
  currentCaption : String
  captionStart : Option Int
deriving DecidableEq

/-- One iteration of the `words.forEach` body of `generateSRT`. -/
def srtStep (st : SrtState) (word : Word) (isLast : Bool) : SrtState :=
  let captionStart := match st.captionStart with
    | none => word.start
    | some s => s
  let currentCaption :=
    if st.currentCaption = "" then word.text
    else st.currentCaption ++ " " ++ word.text
  let captionEnd := word.«end»
  if shouldBreakAt currentCaption captionStart captionEnd word isLast
      && !(jsTrim currentCaption).isEmpty then
    { srtContent := st.srtContent
        ++ toString st.captionIndex ++ "\n"
        ++ formatCaptionTime captionStart "srt" ++ " --> "
        ++ formatCaptionTime captionEnd "srt" ++ "\n"
        ++ jsTrim currentCaption ++ "\n\n"
      captionIndex := st.captionIndex + 1
      currentCaption := ""
      captionStart := none }
  else
    { srtContent := st.srtContent
      captionIndex := st.captionIndex
      currentCaption := currentCaption
      captionStart := some captionStart }

/-- The `words.forEach` loop of `generateSRT`, followed by returning
the accumulated `srtContent`. -/
def generateSRTGo : SrtState → List Word → String
  | st, [] => st.srtContent
  | st, w :: ws => generateSRTGo (srtStep st w ws.isEmpty) ws

/-- Translation of `generateSRT(words)`; `none` models a null/undefined
`words` argument (the JavaScript guard is `!words || words.length === 0`). -/
def generateSRT (words : Option (List Word)) : String :=
  match words with
  | none => "No word-level timing data available"
  | some ws =>
    if ws.isEmpty then "No word-level timing data available"
    else generateSRTGo ⟨"", 1, "", none⟩ ws

/-- The mutable state of the `generateVTT` loop (no caption index). -/
structure VttState where
  vttContent : String
  currentCaption : String
  captionStart : Option Int
deriving DecidableEq

/-- One iteration of the `words.forEach` body of `generateVTT`. -/
def vttStep (st : VttState) (word : Word) (isLast : Bool) : VttState :=
  let captionStart := match st.captionStart with
    | none => word.start
    | some s => s
  let currentCaption :=
    if st.currentCaption = "" then word.text
    else st.currentCaption ++ " " ++ word.text
  let captionEnd := word.«end»
  if shouldBreakAt currentCaption captionStart captionEnd word isLast
      && !(jsTrim currentCaption).isEmpty then
    { vttContent := st.vttContent
        ++ formatCaptionTime captionStart "vtt" ++ " --> "
        ++ formatCaptionTime captionEnd "vtt" ++ "\n"
        ++ jsTrim currentCaption ++ "\n\n"
      currentCaption := ""
      captionStart := none }
  else
    { vttContent := st.vttContent
      currentCaption := currentCaption
      captionStart := some captionStart }

/-- The `words.forEach` loop of `generateVTT`. -/
def generateVTTGo : VttState → List Word → String
  | st, [] => st.vttContent
  | st, w :: ws => generateVTTGo (vttStep st w ws.isEmpty) ws

/-- Translation of `generateVTT(words)`. -/
def generateVTT (words : Option (List Word)) : String :=
  match words with
  | none =>
    "WEBVTT\n\nNOTE\nNo word-level timing data available\n\n00:00:00.000 --> 00:00:10.000\nNo transcription available"
  | some ws =>
    if ws.isEmpty then
      "WEBVTT\n\nNOTE\nNo word-level timing data available\n\n00:00:00.000 --> 00:00:10.000\nNo transcription available"
    else generateVTTGo ⟨"WEBVTT\n\n", "", none⟩ ws

/-- The `sampleWords` test data (confidence fields dropped). -/
def sampleWords : List Word :=
  [⟨"Hello", 0, 500⟩, ⟨"world", 500, 1000⟩, ⟨"this", 1200, 1500⟩,
   ⟨"is", 1500, 1700⟩, ⟨"a", 1700, 1800⟩, ⟨"test", 1800, 2200⟩,
   ⟨"sentence.", 2200, 2800⟩]

/-! ### Cue-level view of the shared segmentation loop

Both generators run the identical accumulation loop and differ only in
how a closed caption is rendered.  `segmentGo` runs that loop once and
records, for every caption it closes, both the list of words that were
accumulated into it and the resulting cue record. -/

/-- One renderable caption cue as described by the specification's
`CaptionCue` data model. -/
structure Cue where
  index : Nat
  startMs : Int
  endMs : Int
  text : String
deriving DecidableEq

/-- The accumulator update `currentCaption += (currentCaption ? ' ' : '') +
word.text` as a function of the old accumulator and the new text. -/
def joinStep (c t : String) : String :=
  if c = "" then t else c ++ " " ++ t

/-- The accumulator contents after absorbing a list of texts, starting
from the empty string. -/
def joinTexts (ts : List String) : String :=
  ts.foldl joinStep ""

/-- The `captionStart` value as a function of the words accumulated so far
(`none` when the accumulator was just reset). -/
def headStartOpt : List Word → Option Int
  | [] => none
  | w :: _ => some w.start

/-- The start time of the first accumulated word (only used on
non-empty accumulators). -/
def headStart : List Word → Int
  | [] => 0
  | w :: _ => w.start

/-- The segmentation loop common to `generateSRT` and `generateVTT`,
emitting for each closed caption the accumulated word group together
with its cue. `acc` is the list of words currently accumulated and
`idx` the running 1-based caption index. -/
def segmentGo (idx : Nat) (acc : List Word) : List Word → List (List Word × Cue)
  | [] => []
  | w :: ws =>
    let acc2 := acc ++ [w]
    let cap := joinTexts (acc2.map Word.text)
    let s := headStart acc2
    let e := w.«end»
    if shouldBreakAt cap s e w ws.isEmpty && !(jsTrim cap).isEmpty then
      (acc2, ⟨idx, s, e, jsTrim cap⟩) :: segmentGo (idx + 1) [] ws
    else
      segmentGo idx acc2 ws

/-- The word groups underlying each emitted cue. -/
def segmentWords (ws : List Word) : List (List Word) :=
  (segmentGo 1 [] ws).map Prod.fst

/-- The cues emitted by the shared segmentation loop. -/
def cuesOf (ws : List Word) : List Cue :=
  (segmentGo 1 [] ws).map Prod.snd

/-- SRT rendering of one cue, exactly the three `srtContent +=` lines. -/
def renderSRTCue (c : Cue) : String :=
  toString c.index ++ "\n"
    ++ formatCaptionTime c.startMs "srt" ++ " --> "
    ++ formatCaptionTime c.endMs "srt" ++ "\n"
    ++ c.text ++ "\n\n"

/-- VTT rendering of one cue: no index line, period separator. -/
def renderVTTCue (c : Cue) : String :=
  formatCaptionTime c.startMs "vtt" ++ " --> "
    ++ formatCaptionTime c.endMs "vtt" ++ "\n"
    ++ c.text ++ "\n\n"

/-- Concatenated SRT rendering of a cue list. -/
def renderSRTCues : List Cue → String
  | [] => ""
  | c :: cs => renderSRTCue c ++ renderSRTCues cs

/-- Concatenated VTT rendering of a cue list. -/
def renderVTTCues : List Cue → String
  | [] => ""
  | c :: cs => renderVTTCue c ++ renderVTTCues cs

/-- The end time of the last accumulated word (only used on non-empty
accumulators). -/
def lastEnd (l : List Word) : Int :=
  match l.getLast? with
  | some w => w.«end»
  | none => 0

/-- The data-model invariant on a token text, strengthened to fully
whitespace-free texts: non-empty, with no whitespace character at all. -/
def ValidText (s : String) : Prop :=
  s.data ≠ [] ∧ ∀ c ∈ s.data, c.isWhitespace = false

instance (s : String) : Decidable (ValidText s) := by
  unfold ValidText; infer_instance

/-- Every token text of the list is a valid (whitespace-free) text. -/
def ValidWords (ws : List Word) : Prop :=
  ∀ w ∈ ws, ValidText w.text

instance (ws : List Word) : Decidable (ValidWords ws) := by
  unfold ValidWords; infer_instance

/-- The segmentation loop as claim C2 words it: a caption is closed at a
token exactly when one of the four break conditions holds there, with no
further non-blank guard on the accumulator. -/
def specSegmentGo (idx : Nat) (acc : List Word) : List Word → List Cue
  | [] => []
  | w :: ws =>
    let acc2 := acc ++ [w]
    let cap := joinTexts (acc2.map Word.text)
    let s := headStart acc2
    let e := w.«end»
    if shouldBreakAt cap s e w ws.isEmpty then
      ⟨idx, s, e, jsTrim cap⟩ :: specSegmentGo (idx + 1) [] ws
    else
      specSegmentGo idx acc2 ws

/-- Cue list produced by the claim-C2 break rule. -/
def specSegment (ws : List Word) : List Cue :=
  specSegmentGo 1 [] ws

/-- Counterexample input for claim C1: a short word followed by a long
whitespace-free word, both valid tokens with sorted timestamps and
`0 ≤ start < end`. -/
def oversizedPair : List Word :=
  [⟨"a", 0, 100⟩, ⟨String.mk (List.replicate 100 'b'), 100, 99999⟩]

/-- Counterexample input for claim C3: one token whose text contains an
interior space, which the claim's precondition (no leading/trailing
whitespace) does not exclude. -/
def spacedToken : List Word :=
  [⟨"a b", 0, 1⟩]

/-- A 90-character token exceeding `maxCaptionLength`, for claim C7. -/
def hugeToken : Word :=
  ⟨String.mk (List.replicate 90 's'), 0, 1000⟩

/-! ### Transcription request coordinator (claim C9)

The backend service implementing the transcription cache/coordinator is
not among the provided source files, so the single-flight behaviour is
modelled from the specification as a guarded transition system over the
callers of one fingerprint. -/

/-- Modelled from the spec: the observable state of one `transcribe`
caller — not yet arrived, attached to the in-flight upstream call, or
finished with a result. -/
inductive CallerStatus where
  | pending
  | waiting
  | done (r : Nat)
deriving DecidableEq

/-- Modelled from the spec: the coordinator state for a single
fingerprint (the backend transcriber service is absent from `src/`).
`cached` is the live cache entry, `inflight` whether an upstream call is
running, `status` the per-caller states, `upstreamCalls` the number of
upstream invocations made. -/
structure CoordState where
  cached : Option Nat
  inflight : Bool
  status : List CallerStatus
  upstreamCalls : Nat
deriving DecidableEq

/-- An interleaving event: caller `i` issues `transcribe`, or the
in-flight upstream call completes with result `r`. -/
inductive CoordEvent where
  | arrive (i : Nat)
  | complete (r : Nat)

/-- Modelled from the spec: one atomic coordinator step.  An arriving
caller is served from the live cache entry if one exists; otherwise it
joins an already in-flight call; otherwise it starts the one upstream
call.  A completion stores the result in the cache and hands it to every
attached waiter. -/
def coordStep (s : CoordState) : CoordEvent → Option CoordState
  | CoordEvent.arrive i =>
    match s.status[i]? with
    | some CallerStatus.pending =>
      match s.cached with
      | some r => some { s with status := s.status.set i (CallerStatus.done r) }
      | none =>
        if s.inflight then
          some { s with status := s.status.set i CallerStatus.waiting }
        else
          some { s with inflight := true
                        status := s.status.set i CallerStatus.waiting
                        upstreamCalls := s.upstreamCalls + 1 }
    | _ => none
  | CoordEvent.complete r =>
    if s.inflight then
      some { cached := some r
             inflight := false
             status := s.status.map (fun st =>
               if st = CallerStatus.waiting then CallerStatus.done r else st)
             upstreamCalls := s.upstreamCalls }
    else
      none

/-- Run a sequence of interleaving events from a state. -/
def coordRun (s : CoordState) : List CoordEvent → Option CoordState
  | [] => some s
  | e :: es =>
    match coordStep s e with
    | some s2 => coordRun s2 es
    | none => none

/-- Initial state for `n` callers of one fingerprint with no live cache
entry: nothing cached, nothing in flight, no upstream call made. -/
def coordInit (n : Nat) : CoordState :=
  ⟨none, false, List.replicate n CallerStatus.pending, 0⟩

/-- The single-flight invariant: the coordinator has made no upstream
call and everything is untouched, or exactly one call is in flight and
nobody has a result yet, or exactly one call was made, completed with
result `r`, and every finished caller got `r`. -/
def CoordInv (s : CoordState) : Prop :=
  (s.upstreamCalls = 0 ∧ s.inflight = false ∧ s.cached = none ∧
      ∀ st ∈ s.status, st = CallerStatus.pending) ∨
  (s.upstreamCalls = 1 ∧ s.inflight = true ∧ s.cached = none ∧
      ∀ st ∈ s.status, st = CallerStatus.pending ∨ st = CallerStatus.waiting) ∨
  (s.upstreamCalls = 1 ∧ s.inflight = false ∧
      ∃ r, s.cached = some r ∧
        ∀ st ∈ s.status, st = CallerStatus.pending ∨ st = CallerStatus.done r)

/-! ### Specification-side timestamp formulas (for claim C6) -/

/-- Zero-pad the decimal representation of a natural number to `k` digits
(specification side). -/
def specPad (n k : Nat) : String :=
  String.mk (List.replicate (k - (toString n).length) '0') ++ toString n

/-- The specification's SRT timestamp formula for a non-negative
millisecond count: `HH:MM:SS,mmm` computed with natural-number
floor-division and remainder. -/
def specTimeSRT (n : Nat) : String :=
  specPad (n / 1000 / 3600) 2 ++ ":" ++ specPad (n / 1000 % 3600 / 60) 2
    ++ ":" ++ specPad (n / 1000 % 60) 2 ++ "," ++ specPad (n % 1000) 3

/-- The specification's VTT timestamp formula: same fields with a
period millisecond separator. -/
def specTimeVTT (n : Nat) : String :=
  specPad (n / 1000 / 3600) 2 ++ ":" ++ specPad (n / 1000 % 3600 / 60) 2
    ++ ":" ++ specPad (n / 1000 % 60) 2 ++ "." ++ specPad (n % 1000) 3

end Captions

namespace Captions

/-! ### Helper lemmas -/

/-- The `Math.floor` division of two non-negative integers is natural division. -/
theorem fdivN (m k : Nat) : (Int.ofNat m).fdiv (Int.ofNat k) = Int.ofNat (m / k) :=
  (Int.ofNat_fdiv m k).symm

/-- The truncated remainder of two non-negative integers is the natural one. -/
theorem tmodN (m k : Nat) : (Int.ofNat m).tmod (Int.ofNat k) = Int.ofNat (m % k) := rfl

/-- Padding the decimal string of a non-negative integer is `specPad`. -/
theorem padZero_ofNat (k c : Nat) : padZero (toString (Int.ofNat k)) c = specPad k c := rfl

theorem int1000 : (1000 : Int) = Int.ofNat 1000 := rfl

theorem int3600 : (3600 : Int) = Int.ofNat 3600 := rfl

theorem int60 : (60 : Int) = Int.ofNat 60 := rfl

/-- Claim C4: On the seven `sampleWords` with the default configuration the
segmenter produces exactly one cue — index 1, start 0 ms, end 2800 ms, text
"Hello world this is a test sentence." — and `generateSRT` renders exactly
that single block. -/
theorem sample_words_single_cue :
    cuesOf sampleWords = [⟨1, 0, 2800, "Hello world this is a test sentence."⟩] ∧
    generateSRT (some sampleWords) =
      "1\n00:00:00,000 --> 00:00:02,800\nHello world this is a test sentence.\n\n" := by
  constructor <;> rfl

/-- Claim C5: On an absent or empty word list `generateSRT` returns the literal
fallback string, and `generateVTT` returns output that starts with the literal
header `WEBVTT` followed by a blank line and contains a placeholder cue
(`00:00:00.000 --> 00:00:10.000` / `No transcription available`). -/
theorem empty_input_placeholder :
    generateSRT none = "No word-level timing data available" ∧
    generateSRT (some []) = "No word-level timing data available" ∧
    generateVTT none = generateVTT (some []) ∧
    generateVTT (some []) =
      "WEBVTT\n\n" ++ "NOTE\nNo word-level timing data available\n\n"
        ++ "00:00:00.000 --> 00:00:10.000\nNo transcription available" := by
  refine ⟨rfl, rfl, rfl, rfl⟩

/-- Claim C6: For every non-negative integer millisecond value, the timestamp
formatter produces `HH:MM:SS,mmm` for SRT and `HH:MM:SS.mmm` for VTT,
computed by the specification's floor-division/remainder formulas with
2-digit zero-padded hours, minutes and seconds (hours unbounded) and 3-digit
milliseconds. -/
theorem formatCaptionTime_spec (n : Nat) :
    formatCaptionTime (Int.ofNat n) "srt" = specTimeSRT n ∧
    formatCaptionTime (Int.ofNat n) "vtt" = specTimeVTT n := by
  constructor <;>
  · simp only [formatCaptionTime, specTimeSRT, specTimeVTT, int1000, int3600, int60,
      fdivN, tmodN, padZero_ofNat]
    rfl

/-! ### String lemmas about the trim and join operations -/

theorem joinStep_empty (t : String) : joinStep "" t = t := by
  unfold joinStep; rw [if_pos rfl]

theorem joinStep_ne (c t : String) (h : c ≠ "") : joinStep c t = c ++ " " ++ t := by
  unfold joinStep; rw [if_neg h]

theorem trimChars_eq_self (l : List Char)
    (h1 : ∀ c, l.head? = some c → c.isWhitespace = false)
    (h2 : ∀ c, l.getLast? = some c → c.isWhitespace = false) :
    trimChars l = l := by
  cases l with
  | nil => rfl
  | cons a l' =>
    have ha : a.isWhitespace = false := h1 a rfl
    unfold trimChars
    rw [List.dropWhile_cons, if_neg (by simp [ha])]
    cases hr : (a :: l').reverse with
    | nil => exact absurd hr (by simp)
    | cons d r =>
      have hd : d.isWhitespace = false := by
        apply h2
        rw [List.getLast?_eq_head?_reverse, hr]; rfl
      rw [List.dropWhile_cons, if_neg (by simp [hd]), ← hr, List.reverse_reverse]

theorem foldl_joinStep_data (ts : List String) : ∀ s : String, s.data ≠ [] →
    (ts.foldl joinStep s).data
      = s.data ++ (ts.map (fun t => ' ' :: t.data)).flatten := by
  induction ts with
  | nil => intro s _; simp
  | cons t ts ih =>
    intro s h
    have hs : s ≠ "" := by
      intro he; rw [he] at h; exact h rfl
    rw [List.foldl_cons, joinStep_ne s t hs, ih (s ++ " " ++ t) (by simp)]
    simp

theorem joinTexts_cons_data (t : String) (ts : List String) (h : t.data ≠ []) :
    (joinTexts (t :: ts)).data
      = t.data ++ (ts.map (fun u => ' ' :: u.data)).flatten := by
  unfold joinTexts
  rw [List.foldl_cons, joinStep_empty]
  exact foldl_joinStep_data ts t h

theorem joinTexts_concat_getLast (ts : List String) (t : String) (h : t.data ≠ []) :
    (joinTexts (ts ++ [t])).data.getLast? = t.data.getLast? := by
  unfold joinTexts
  rw [List.foldl_append, List.foldl_cons, List.foldl_nil]
  by_cases hc : List.foldl joinStep "" ts = ""
  · rw [hc, joinStep_empty]
  · rw [joinStep_ne _ t hc]
    simp only [String.data_append]
    rw [List.getLast?_append_of_ne_nil _ h]

/-- A string with non-empty data is not the empty string. -/
theorem ne_empty_of_data (s : String) (h : s.data ≠ []) : s ≠ "" := by
  intro he; rw [he] at h; exact h rfl

/-- Joining the texts of a non-empty group of valid words yields a
non-blank string that `jsTrim` leaves unchanged. -/
theorem jsTrim_join (g : List Word) (hg : g ≠ [])
    (hv : ∀ w ∈ g, ValidText w.text) :
    jsTrim (joinTexts (g.map Word.text)) = joinTexts (g.map Word.text) ∧
      (joinTexts (g.map Word.text)).data ≠ [] := by
  cases g with
  | nil => exact absurd rfl hg
  | cons w g' =>
    have hw : ValidText w.text := hv w (List.mem_cons_self w g')
    have hdata : (joinTexts ((w :: g').map Word.text)).data
        = w.text.data ++ ((g'.map Word.text).map (fun u => ' ' :: u.data)).flatten := by
      rw [List.map_cons]
      exact joinTexts_cons_data w.text (g'.map Word.text) hw.1
    have hne : (joinTexts ((w :: g').map Word.text)).data ≠ [] := by
      rw [hdata]
      intro hcon
      exact hw.1 (List.append_eq_nil.mp hcon).1
    refine ⟨?_, hne⟩
    have hhead : ∀ c, (joinTexts ((w :: g').map Word.text)).data.head? = some c →
        c.isWhitespace = false := by
      intro c hc
      rw [hdata, List.head?_append_of_ne_nil _ hw.1] at hc
      exact hw.2 c (List.mem_of_mem_head? hc)
    have hlast : ∀ c, (joinTexts ((w :: g').map Word.text)).data.getLast? = some c →
        c.isWhitespace = false := by
      intro c hc
      rcases List.eq_nil_or_concat (w :: g') with hnil | ⟨L, b, hLb⟩
      · exact absurd hnil (List.cons_ne_nil w g')
      · have hb : ValidText b.text := by
          apply hv
          rw [hLb, List.concat_eq_append]
          exact List.mem_append_right L (List.mem_singleton_self b)
        rw [hLb] at hc
        rw [List.concat_eq_append, List.map_append, List.map_cons, List.map_nil] at hc
        rw [joinTexts_concat_getLast (L.map Word.text) b.text hb.1] at hc
        exact hb.2 c (List.mem_of_mem_getLast? hc)
    show String.mk (trimChars (joinTexts ((w :: g').map Word.text)).data) = _
    rw [trimChars_eq_self _ hhead hlast]

/-- Under validity the non-blank guard of the loop is always true for a
non-empty accumulator. -/
theorem trim_guard (g : List Word) (hg : g ≠ [])
    (hv : ∀ w ∈ g, ValidText w.text) :
    (!(jsTrim (joinTexts (g.map Word.text))).isEmpty) = true := by
  obtain ⟨htrim, hne⟩ := jsTrim_join g hg hv
  rw [htrim]
  have h1 : joinTexts (g.map Word.text) ≠ "" := ne_empty_of_data _ hne
  have h2 : ¬(joinTexts (g.map Word.text)).isEmpty = true :=
    fun hcon => h1 ((String.isEmpty_iff _).mp hcon)
  simp [h2]

end Captions

namespace Captions

theorem headStartOpt_concat (acc : List Word) (w : Word) :
    headStartOpt (acc ++ [w]) = some (headStart (acc ++ [w])) := by
  cases acc <;> rfl

theorem lastEnd_concat (acc : List Word) (w : Word) :
    lastEnd (acc ++ [w]) = w.«end» := by
  unfold lastEnd
  rw [List.getLast?_concat]

theorem shouldBreakAt_last (cap : String) (s e : Int) (w : Word) :
    shouldBreakAt cap s e w true = true := by
  simp [shouldBreakAt]

theorem segmentGo_group_spec (ws : List Word) : ∀ idx acc p, p ∈ segmentGo idx acc ws →
    p.1 ≠ [] ∧ p.1.Sublist (acc ++ ws) ∧
    p.2.startMs = headStart p.1 ∧ p.2.endMs = lastEnd p.1 ∧
    p.2.text = jsTrim (joinTexts (p.1.map Word.text)) := by
  induction ws with
  | nil =>
    intro idx acc p hp
    simp [segmentGo] at hp
  | cons w ws ih =>
    intro idx acc p hp
    simp only [segmentGo] at hp
    by_cases hbrk : (shouldBreakAt (joinTexts ((acc ++ [w]).map Word.text))
        (headStart (acc ++ [w])) w.«end» w ws.isEmpty
        && !(jsTrim (joinTexts ((acc ++ [w]).map Word.text))).isEmpty) = true
    · rw [if_pos hbrk] at hp
      rcases List.mem_cons.mp hp with heq | hmem
      · subst heq
        refine ⟨by simp, ?_, rfl, (lastEnd_concat acc w).symm, rfl⟩
        exact List.Sublist.append (List.Sublist.refl acc)
          (List.Sublist.cons₂ w (List.nil_sublist ws))
      · obtain ⟨h1, h2, h3⟩ := ih (idx + 1) [] p hmem
        refine ⟨h1, ?_, h3⟩
        apply h2.trans
        simp only [List.nil_append]
        exact (List.sublist_cons_self w ws).trans
          (List.sublist_append_right acc (w :: ws))
    · rw [if_neg hbrk] at hp
      obtain ⟨h1, h2, h3⟩ := ih idx (acc ++ [w]) p hp
      refine ⟨h1, ?_, h3⟩
      apply h2.trans
      rw [List.append_assoc, List.singleton_append]

theorem validWords_sub {xs ys : List Word} (h : ValidWords ys) (hsub : ∀ w ∈ xs, w ∈ ys) :
    ValidWords xs :=
  fun w hw => h w (hsub w hw)

theorem segmentGo_flatten (ws : List Word) : ∀ idx acc, ValidWords (acc ++ ws) →
    ((segmentGo idx acc ws).map Prod.fst).flatten
      = if ws.isEmpty then [] else acc ++ ws := by
  induction ws with
  | nil =>
    intro idx acc _
    simp [segmentGo]
  | cons w ws ih =>
    intro idx acc hvw
    have hacc2 : ∀ x ∈ acc ++ [w], ValidText x.text := by
      intro x hx
      apply hvw
      rcases List.mem_append.mp hx with h | h
      · exact List.mem_append_left _ h
      · rw [List.mem_singleton.mp h]
        exact List.mem_append_right _ (List.mem_cons_self w ws)
    have hguard := trim_guard (acc ++ [w]) (by simp) hacc2
    simp only [segmentGo]
    by_cases hbrk : shouldBreakAt (joinTexts ((acc ++ [w]).map Word.text))
        (headStart (acc ++ [w])) w.«end» w ws.isEmpty = true
    · rw [if_pos (by rw [hbrk, hguard]; rfl)]
      simp only [List.map_cons, List.flatten_cons]
      have hws : ValidWords ([] ++ ws) := by
        intro x hx
        exact hvw x (List.mem_append_right acc (List.mem_cons_of_mem w hx))
      rw [ih (idx + 1) [] hws]
      cases ws with
      | nil => simp
      | cons v vs => simp [List.append_assoc]
    · have hcond : ¬(shouldBreakAt (joinTexts ((acc ++ [w]).map Word.text))
          (headStart (acc ++ [w])) w.«end» w ws.isEmpty
          && !(jsTrim (joinTexts ((acc ++ [w]).map Word.text))).isEmpty) = true := by
        intro hc
        exact hbrk (Bool.and_elim_left hc)
      rw [if_neg hcond]
      have hwsne : ws.isEmpty = false := by
        cases hws : ws.isEmpty
        · rfl
        · rw [hws] at hbrk
          exact absurd (shouldBreakAt_last _ _ _ w) hbrk
      have hv2 : ValidWords ((acc ++ [w]) ++ ws) := by
        intro x hx
        apply hvw
        rw [List.append_assoc, List.singleton_append] at hx
        exact hx
      rw [ih idx (acc ++ [w]) hv2]
      have hne : ws ≠ [] := by
        intro hc; rw [hc] at hwsne; exact Bool.false_ne_true hwsne.symm
      simp [hwsne, hne, List.append_assoc]

theorem joinTexts_nil : joinTexts [] = "" := rfl

theorem headStartOpt_nil : headStartOpt [] = none := rfl

theorem joinTexts_concat_step (acc : List Word) (w : Word) :
    (if joinTexts (acc.map Word.text) = "" then w.text
      else joinTexts (acc.map Word.text) ++ " " ++ w.text)
      = joinTexts ((acc ++ [w]).map Word.text) := by
  rw [List.map_append, List.map_cons, List.map_nil]
  unfold joinTexts
  rw [List.foldl_append, List.foldl_cons, List.foldl_nil]
  simp only [joinStep]

theorem headStart_match (acc : List Word) (w : Word) :
    (match headStartOpt acc with
     | none => w.start
     | some s => s) = headStart (acc ++ [w]) := by
  cases acc <;> rfl

theorem generateSRTGo_render (ws : List Word) : ∀ content idx acc,
    generateSRTGo ⟨content, idx, joinTexts (acc.map Word.text), headStartOpt acc⟩ ws
      = content ++ renderSRTCues ((segmentGo idx acc ws).map Prod.snd) := by
  induction ws with
  | nil =>
    intro content idx acc
    simp [generateSRTGo, segmentGo, renderSRTCues, String.append_empty]
  | cons w ws ih =>
    intro content idx acc
    show generateSRTGo
        (srtStep ⟨content, idx, joinTexts (acc.map Word.text), headStartOpt acc⟩ w ws.isEmpty) ws
      = _
    unfold srtStep
    simp only [joinTexts_concat_step acc w, headStart_match acc w]
    by_cases hbrk : (shouldBreakAt (joinTexts ((acc ++ [w]).map Word.text))
        (headStart (acc ++ [w])) w.«end» w ws.isEmpty
        && !(jsTrim (joinTexts ((acc ++ [w]).map Word.text))).isEmpty) = true
    · rw [if_pos hbrk]
      have hih := ih (content
          ++ toString idx ++ "\n"
          ++ formatCaptionTime (headStart (acc ++ [w])) "srt" ++ " --> "
          ++ formatCaptionTime w.«end» "srt" ++ "\n"
          ++ jsTrim (joinTexts ((acc ++ [w]).map Word.text)) ++ "\n\n") (idx + 1) []
      simp only [List.map_nil, joinTexts_nil, headStartOpt_nil] at hih
      rw [hih]
      simp only [segmentGo]
      rw [if_pos hbrk]
      simp only [List.map_cons, renderSRTCues, renderSRTCue]
      simp [String.append_assoc]
    · rw [if_neg hbrk]
      rw [← headStartOpt_concat acc w]
      have hih := ih content idx (acc ++ [w])
      rw [hih]
      simp only [segmentGo]
      rw [if_neg hbrk]

end Captions

namespace Captions

theorem generateVTTGo_render (ws : List Word) : ∀ content idx acc,
    generateVTTGo ⟨content, joinTexts (acc.map Word.text), headStartOpt acc⟩ ws
      = content ++ renderVTTCues ((segmentGo idx acc ws).map Prod.snd) := by
  induction ws with
  | nil =>
    intro content idx acc
    simp [generateVTTGo, segmentGo, renderVTTCues, String.append_empty]
  | cons w ws ih =>
    intro content idx acc
    show generateVTTGo
        (vttStep ⟨content, joinTexts (acc.map Word.text), headStartOpt acc⟩ w ws.isEmpty) ws
      = _
    unfold vttStep
    simp only [joinTexts_concat_step acc w, headStart_match acc w]
    by_cases hbrk : (shouldBreakAt (joinTexts ((acc ++ [w]).map Word.text))
        (headStart (acc ++ [w])) w.«end» w ws.isEmpty
        && !(jsTrim (joinTexts ((acc ++ [w]).map Word.text))).isEmpty) = true
    · rw [if_pos hbrk]
      have hih := ih (content
          ++ formatCaptionTime (headStart (acc ++ [w])) "vtt" ++ " --> "
          ++ formatCaptionTime w.«end» "vtt" ++ "\n"
          ++ jsTrim (joinTexts ((acc ++ [w]).map Word.text)) ++ "\n\n") (idx + 1) []
      simp only [List.map_nil, joinTexts_nil, headStartOpt_nil] at hih
      rw [hih]
      simp only [segmentGo]
      rw [if_pos hbrk]
      simp only [List.map_cons, renderVTTCues, renderVTTCue]
      simp [String.append_assoc]
    · rw [if_neg hbrk]
      rw [← headStartOpt_concat acc w]
      have hih := ih content idx (acc ++ [w])
      rw [hih]
      simp only [segmentGo]
      rw [if_neg hbrk]

theorem generateSRT_render (ws : List Word) (h : ws ≠ []) :
    generateSRT (some ws) = renderSRTCues (cuesOf ws) := by
  have hne : ws.isEmpty = false := by
    cases ws with
    | nil => exact absurd rfl h
    | cons a l => rfl
  show (if ws.isEmpty = true then "No word-level timing data available"
      else generateSRTGo ⟨"", 1, "", none⟩ ws) = renderSRTCues (cuesOf ws)
  rw [hne, if_neg Bool.false_ne_true]
  have hg := generateSRTGo_render ws "" 1 []
  simp only [List.map_nil, joinTexts_nil, headStartOpt_nil] at hg
  rw [hg, String.empty_append]
  rfl

theorem generateVTT_render (ws : List Word) (h : ws ≠ []) :
    generateVTT (some ws) = "WEBVTT\n\n" ++ renderVTTCues (cuesOf ws) := by
  have hne : ws.isEmpty = false := by
    cases ws with
    | nil => exact absurd rfl h
    | cons a l => rfl
  show (if ws.isEmpty = true then
      "WEBVTT\n\nNOTE\nNo word-level timing data available\n\n00:00:00.000 --> 00:00:10.000\nNo transcription available"
      else generateVTTGo ⟨"WEBVTT\n\n", "", none⟩ ws) = "WEBVTT\n\n" ++ renderVTTCues (cuesOf ws)
  rw [hne, if_neg Bool.false_ne_true]
  have hg := generateVTTGo_render ws "WEBVTT\n\n" 1 []
  simp only [List.map_nil, joinTexts_nil, headStartOpt_nil] at hg
  rw [hg]
  rfl

/-- Claim C10: For every non-empty token list the SRT and VTT generators render
the *same* cue list (`cuesOf`): same segmentation, same trimmed texts, same
start/end milliseconds.  The outputs differ only in the `WEBVTT` header, the
SRT per-cue index line, and the millisecond separator used by
`renderSRTCue` versus `renderVTTCue`. -/
theorem srt_vtt_same_cues (ws : List Word) (h : ws ≠ []) :
    generateSRT (some ws) = renderSRTCues (cuesOf ws) ∧
    generateVTT (some ws) = "WEBVTT\n\n" ++ renderVTTCues (cuesOf ws) :=
  ⟨generateSRT_render ws h, generateVTT_render ws h⟩

/-- Witness for C10 at the concrete `sampleWords` input. -/
theorem srt_vtt_same_cues_witness :
    generateSRT (some sampleWords) = renderSRTCues (cuesOf sampleWords) ∧
    generateVTT (some sampleWords) = "WEBVTT\n\n" ++ renderVTTCues (cuesOf sampleWords) :=
  srt_vtt_same_cues sampleWords (by decide)

end Captions

namespace Captions

theorem segmentGo_spec_eq (ws : List Word) : ∀ idx acc, ValidWords (acc ++ ws) →
    (segmentGo idx acc ws).map Prod.snd = specSegmentGo idx acc ws := by
  induction ws with
  | nil =>
    intro idx acc _
    simp [segmentGo, specSegmentGo]
  | cons w ws ih =>
    intro idx acc hvw
    have hacc2 : ∀ x ∈ acc ++ [w], ValidText x.text := by
      intro x hx
      apply hvw
      rcases List.mem_append.mp hx with h | h
      · exact List.mem_append_left _ h
      · rw [List.mem_singleton.mp h]
        exact List.mem_append_right _ (List.mem_cons_self w ws)
    have hguard := trim_guard (acc ++ [w]) (by simp) hacc2
    simp only [segmentGo, specSegmentGo]
    by_cases hbrk : shouldBreakAt (joinTexts ((acc ++ [w]).map Word.text))
        (headStart (acc ++ [w])) w.«end» w ws.isEmpty = true
    · rw [if_pos (by rw [hbrk, hguard]; rfl), if_pos hbrk]
      rw [List.map_cons]
      have hws : ValidWords ([] ++ ws) := by
        intro x hx
        exact hvw x (List.mem_append_right acc (List.mem_cons_of_mem w hx))
      rw [ih (idx + 1) [] hws]
    · have hcond : ¬(shouldBreakAt (joinTexts ((acc ++ [w]).map Word.text))
          (headStart (acc ++ [w])) w.«end» w ws.isEmpty
          && !(jsTrim (joinTexts ((acc ++ [w]).map Word.text))).isEmpty) = true := by
        intro hc
        exact hbrk (Bool.and_elim_left hc)
      rw [if_neg hcond, if_neg hbrk]
      have hv2 : ValidWords ((acc ++ [w]) ++ ws) := by
        intro x hx
        apply hvw
        rw [List.append_assoc, List.singleton_append] at hx
        exact hx
      exact ih idx (acc ++ [w]) hv2

/-- Claim C2: For valid (non-empty, whitespace-free) token texts the
segmentation loop closes the current cue at a token exactly when one of the
four break conditions holds there — the loop's extra non-blank guard never
changes the outcome, so the emitted cues coincide with those of the
guard-free break rule `specSegment`. -/
theorem break_rule_iff (ws : List Word) (hv : ValidWords ws) :
    cuesOf ws = specSegment ws := by
  unfold cuesOf specSegment
  exact segmentGo_spec_eq ws 1 [] (by simpa using hv)

/-- Witness for C2 at the concrete `sampleWords` input. -/
theorem break_rule_iff_witness :
    ValidWords sampleWords ∧ cuesOf sampleWords = specSegment sampleWords :=
  ⟨by decide, break_rule_iff sampleWords (by decide)⟩

/-- Claim C8: Under the data-model preconditions (integer `0 ≤ start < end`
per token, tokens sorted by non-decreasing `start`), every emitted cue has
`endMs > startMs`, where `startMs` is the first accumulated token's start
and `endMs` the last accumulated token's end. -/
theorem cue_end_gt_start (ws : List Word)
    (h1 : ∀ w ∈ ws, 0 ≤ w.start ∧ w.start < w.«end»)
    (h2 : ws.Pairwise (fun a b => a.start ≤ b.start)) :
    ∀ c ∈ cuesOf ws, c.startMs < c.endMs := by
  intro c hc
  obtain ⟨p, hp, hpc⟩ := List.mem_map.mp hc
  obtain ⟨hne, hsub, hstart, hend, _⟩ := segmentGo_group_spec ws 1 [] p hp
  rw [List.nil_append] at hsub
  cases hg : p.1 with
  | nil => exact absurd hg hne
  | cons a l =>
    have hglast : (a :: l).getLast (List.cons_ne_nil a l) ∈ a :: l :=
      List.getLast_mem (List.cons_ne_nil a l)
    have hmemws : (a :: l).getLast (List.cons_ne_nil a l) ∈ ws := by
      apply List.Sublist.mem hglast
      rw [← hg]; exact hsub
    have hlt : ((a :: l).getLast (List.cons_ne_nil a l)).start
        < ((a :: l).getLast (List.cons_ne_nil a l)).«end» := (h1 _ hmemws).2
    have hle : a.start ≤ ((a :: l).getLast (List.cons_ne_nil a l)).start := by
      have hpair : (a :: l).Pairwise (fun x y => x.start ≤ y.start) := by
        apply List.Pairwise.sublist _ h2
        rw [← hg]; exact hsub
      rcases List.mem_cons.mp hglast with heq | hmem
      · rw [heq]
      · exact (List.pairwise_cons.mp hpair).1 _ hmem
    have hse : headStart p.1 < lastEnd p.1 := by
      rw [hg]
      show a.start < lastEnd (a :: l)
      have : lastEnd (a :: l) = ((a :: l).getLast (List.cons_ne_nil a l)).«end» := by
        unfold lastEnd
        rw [List.getLast?_eq_getLast (a :: l) (List.cons_ne_nil a l)]
      rw [this]
      exact lt_of_le_of_lt hle hlt
    rw [← hpc, hstart, hend]
    exact hse

/-- Witness for C8 at the concrete `sampleWords` input. -/
theorem cue_end_gt_start_witness :
    (cuesOf sampleWords).map Cue.startMs = [0] ∧
      (cuesOf sampleWords).map Cue.endMs = [2800] ∧ (0 : Int) < 2800 := by
  refine ⟨by decide, by decide, ?_⟩
  exact cue_end_gt_start sampleWords (by decide) (by decide)
    ⟨1, 0, 2800, "Hello world this is a test sentence."⟩ (by decide)

end Captions

namespace Captions

/-- Claim C7: A single token whose text alone exceeds `maxCaptionLength` is
still emitted as exactly one cue whose text is the token's full text,
untruncated and unsplit. -/
theorem single_oversized_cue (w : Word) (_hlen : maxCaptionLength < w.text.length)
    (hv : ValidText w.text) :
    cuesOf [w] = [⟨1, w.start, w.«end», w.text⟩] := by
  have hj : joinTexts ([w].map Word.text) = w.text := by
    show joinTexts [w.text] = w.text
    unfold joinTexts
    rw [List.foldl_cons, List.foldl_nil, joinStep_empty]
  have htrim : jsTrim w.text = w.text := by
    have := (jsTrim_join [w] (List.cons_ne_nil w []) (by
      intro x hx; rw [List.mem_singleton.mp hx]; exact hv)).1
    rw [hj] at this
    exact this
  have hguard := trim_guard [w] (List.cons_ne_nil w []) (by
    intro x hx; rw [List.mem_singleton.mp hx]; exact hv)
  rw [hj] at hguard
  unfold cuesOf
  simp only [segmentGo, List.nil_append, hj]
  rw [if_pos (by rw [List.isEmpty_nil, shouldBreakAt_last, hguard]; rfl)]
  simp [htrim, headStart]

/-- Witness for C7: the 90-character `hugeToken` yields one untruncated cue. -/
theorem single_oversized_cue_witness :
    maxCaptionLength < hugeToken.text.length ∧ ValidText hugeToken.text ∧
      cuesOf [hugeToken] = [⟨1, hugeToken.start, hugeToken.«end», hugeToken.text⟩] :=
  ⟨by decide, by decide, single_oversized_cue hugeToken (by decide) (by decide)⟩

/-- Claim C1, counterexample: `oversizedPair` satisfies every precondition of
the claim (valid whitespace-free texts, `0 ≤ start < end`, sorted starts,
default configuration), yet the segmenter emits a single cue built from
*two* tokens — not a single-oversized-token cue — whose text length 102
exceeds `maxCaptionLength = 80` and whose duration 99999 ms exceeds
`maxCaptionDuration = 5000`. -/
theorem length_duration_bound_counterexample :
    ValidWords oversizedPair ∧
    (∀ w ∈ oversizedPair, 0 ≤ w.start ∧ w.start < w.«end») ∧
    oversizedPair.Pairwise (fun a b => a.start ≤ b.start) ∧
    (segmentWords oversizedPair).map List.length = [2] ∧
    (cuesOf oversizedPair).map (fun c => (c.text.length, c.endMs - c.startMs))
      = [(102, 99999)] ∧
    ¬(102 ≤ maxCaptionLength) ∧ ¬((99999 : Int) ≤ maxCaptionDuration) := by
  refine ⟨by decide, by decide, by decide, by decide, by decide, by decide, by decide⟩

theorem segmentGo_prefix_bound (ws : List Word) : ∀ idx acc, ValidWords (acc ++ ws) →
    (acc = [] ∨ ((joinTexts (acc.map Word.text)).length < maxCaptionLength ∧
      lastEnd acc - headStart acc < maxCaptionDuration)) →
    ∀ p ∈ segmentGo idx acc ws,
      p.1.dropLast = [] ∨
        ((joinTexts (p.1.dropLast.map Word.text)).length < maxCaptionLength ∧
          lastEnd p.1.dropLast - headStart p.1.dropLast < maxCaptionDuration) := by
  induction ws with
  | nil =>
    intro idx acc _ _ p hp
    simp [segmentGo] at hp
  | cons w ws ih =>
    intro idx acc hvw hinv p hp
    have hacc2 : ∀ x ∈ acc ++ [w], ValidText x.text := by
      intro x hx
      apply hvw
      rcases List.mem_append.mp hx with h | h
      · exact List.mem_append_left _ h
      · rw [List.mem_singleton.mp h]
        exact List.mem_append_right _ (List.mem_cons_self w ws)
    have hguard := trim_guard (acc ++ [w]) (by simp) hacc2
    have hws : ValidWords ([] ++ ws) := by
      intro x hx
      exact hvw x (List.mem_append_right acc (List.mem_cons_of_mem w hx))
    have hv2 : ValidWords ((acc ++ [w]) ++ ws) := by
      intro x hx
      apply hvw
      rw [List.append_assoc, List.singleton_append] at hx
      exact hx
    simp only [segmentGo] at hp
    by_cases hbrk : shouldBreakAt (joinTexts ((acc ++ [w]).map Word.text))
        (headStart (acc ++ [w])) w.«end» w ws.isEmpty = true
    · rw [if_pos (by rw [hbrk, hguard]; rfl)] at hp
      rcases List.mem_cons.mp hp with heq | hmem
      · subst heq
        show (acc ++ [w]).dropLast = [] ∨ _
        rw [List.dropLast_concat]
        exact hinv
      · exact ih (idx + 1) [] hws (Or.inl rfl) p hmem
    · have hcond : ¬(shouldBreakAt (joinTexts ((acc ++ [w]).map Word.text))
          (headStart (acc ++ [w])) w.«end» w ws.isEmpty
          && !(jsTrim (joinTexts ((acc ++ [w]).map Word.text))).isEmpty) = true := by
        intro hc
        exact hbrk (Bool.and_elim_left hc)
      rw [if_neg hcond] at hp
      have hinv2 : (acc ++ [w] = []) ∨
          ((joinTexts ((acc ++ [w]).map Word.text)).length < maxCaptionLength ∧
            lastEnd (acc ++ [w]) - headStart (acc ++ [w]) < maxCaptionDuration) := by
        right
        have hb : shouldBreakAt (joinTexts ((acc ++ [w]).map Word.text))
            (headStart (acc ++ [w])) w.«end» w ws.isEmpty = false :=
          Bool.eq_false_iff.mpr hbrk
        unfold shouldBreakAt at hb
        simp only [Bool.or_eq_false_iff, decide_eq_false_iff_not, not_le] at hb
        rw [lastEnd_concat]
        exact ⟨hb.1.1.1, hb.1.1.2⟩
      exact ih idx (acc ++ [w]) hv2 hinv2 p hp

/-- Claim C1, amended: Under the claim's preconditions, what actually holds is
the bound on the accumulator *before the final token of each cue*: for every
emitted cue, either it consists of a single token, or the text accumulated
from all but its final token is strictly shorter than `maxCaptionLength` and
the time span up to its second-to-last token's end is strictly below
`maxCaptionDuration`.  The final token may push both the text length and the
duration past the caps, so the claimed bounds fail even for multi-token cues
(see the counterexample). -/
theorem length_duration_bound_amended (ws : List Word) (hv : ValidWords ws)
    (_h1 : ∀ w ∈ ws, 0 ≤ w.start ∧ w.start < w.«end»)
    (_h2 : ws.Pairwise (fun a b => a.start ≤ b.start)) :
    ∀ p ∈ segmentGo 1 [] ws, p.1.dropLast ≠ [] →
      (joinTexts (p.1.dropLast.map Word.text)).length < maxCaptionLength ∧
        lastEnd p.1.dropLast - headStart p.1.dropLast < maxCaptionDuration := by
  intro p hp hne
  rcases segmentGo_prefix_bound ws 1 [] (by simpa using hv) (Or.inl rfl) p hp with
    h | h
  · exact absurd h hne
  · exact h

/-- Witness for the amended C1 at the two-token `oversizedPair` input. -/
theorem length_duration_bound_amended_witness :
    (joinTexts ((oversizedPair.take 1).map Word.text)).length < maxCaptionLength ∧
      lastEnd (oversizedPair.take 1) - headStart (oversizedPair.take 1)
        < maxCaptionDuration := by
  have := length_duration_bound_amended oversizedPair (by decide) (by decide) (by decide)
    (oversizedPair, ⟨1, 0, 99999,
      jsTrim (joinTexts (oversizedPair.map Word.text))⟩) (by decide) (by decide)
  exact this

end Captions

namespace Captions

theorem splitOn_no_space (l : List Char) (h : ∀ c ∈ l, c.isWhitespace = false) :
    l.splitOn ' ' = [l] := by
  show l.splitOnP (· == ' ') = [l]
  apply List.splitOnP_eq_single
  intro x hx
  have hxw := h x hx
  have hx' : x ≠ ' ' := by
    intro he; rw [he] at hxw; exact absurd hxw (by decide)
  simp [hx']

theorem splitOn_join_texts (ts : List String) : ∀ t : String,
    (t.data ≠ [] ∧ ∀ c ∈ t.data, c.isWhitespace = false) →
    (∀ u ∈ ts, u.data ≠ [] ∧ ∀ c ∈ u.data, c.isWhitespace = false) →
    (t.data ++ (ts.map (fun u => ' ' :: u.data)).flatten).splitOn ' '
      = t.data :: ts.map String.data := by
  induction ts with
  | nil =>
    intro t ht _
    simp only [List.map_nil, List.flatten_nil, List.append_nil]
    exact splitOn_no_space t.data ht.2
  | cons u ts ih =>
    intro t ht hts
    rw [List.map_cons, List.flatten_cons]
    have hassoc : t.data ++ ((' ' :: u.data)
          ++ (ts.map (fun v => ' ' :: v.data)).flatten)
        = t.data ++ ' ' :: (u.data ++ (ts.map (fun v => ' ' :: v.data)).flatten) := by
      simp
    rw [hassoc]
    show (t.data ++ ' ' :: (u.data ++ _)).splitOnP (· == ' ') = _
    rw [List.splitOnP_first _ _ (by
        intro x hx
        have hxw := ht.2 x hx
        have hx' : x ≠ ' ' := by
          intro he; rw [he] at hxw; exact absurd hxw (by decide)
        simp [hx']) ' ' (by simp) _]
    have hu := hts u (List.mem_cons_self u ts)
    have hih := ih u hu (fun v hv => hts v (List.mem_cons_of_mem u hv))
    show t.data :: (u.data ++ _).splitOnP (· == ' ') = _
    rw [show (u.data ++ (ts.map (fun v => ' ' :: v.data)).flatten).splitOnP (· == ' ')
        = (u.data ++ (ts.map (fun v => ' ' :: v.data)).flatten).splitOn ' ' from rfl]
    rw [hih, List.map_cons]

theorem cue_text_splits (g : List Word) (hg : g ≠ [])
    (hv : ∀ w ∈ g, ValidText w.text) :
    (jsTrim (joinTexts (g.map Word.text))).data.splitOn ' '
      = g.map (fun w => w.text.data) := by
  rw [(jsTrim_join g hg hv).1]
  cases g with
  | nil => exact absurd rfl hg
  | cons w g' =>
    have hw := hv w (List.mem_cons_self w g')
    rw [List.map_cons]
    rw [joinTexts_cons_data w.text (g'.map Word.text) hw.1]
    rw [splitOn_join_texts (g'.map Word.text) w.text ⟨hw.1, hw.2⟩ (by
      intro u hu
      obtain ⟨x, hx, hxu⟩ := List.mem_map.mp hu
      rw [← hxu]
      exact hv x (List.mem_cons_of_mem w hx))]
    rw [List.map_cons, List.map_map]
    rfl

/-- Claim C3, counterexample: The single token `"a b"` satisfies the claim's
stated precondition (non-empty text with no leading or trailing whitespace),
but splitting the emitted cue's text on single spaces yields the two pieces
`"a"` and `"b"` instead of the original token text. -/
theorem coverage_counterexample :
    (∀ w ∈ spacedToken, w.text.data ≠ [] ∧
      (∀ c, w.text.data.head? = some c → c.isWhitespace = false) ∧
      (∀ c, w.text.data.getLast? = some c → c.isWhitespace = false)) ∧
    ((cuesOf spacedToken).map (fun c => c.text.data.splitOn ' ')).flatten
      ≠ spacedToken.map (fun w => w.text.data) := by
  exact ⟨by decide, by decide⟩

/-- Claim C3, amended: If every token text is non-empty and contains no
whitespace character *anywhere* (not merely at its ends), then splitting
each emitted cue's text on single spaces and concatenating the pieces in
order reproduces the original token text sequence exactly — no token
dropped, duplicated, split or reordered. -/
theorem coverage_amended (ws : List Word) (hv : ValidWords ws) :
    ((cuesOf ws).map (fun c => c.text.data.splitOn ' ')).flatten
      = ws.map (fun w => w.text.data) := by
  cases ws with
  | nil => rfl
  | cons w0 ws0 =>
    unfold cuesOf
    rw [List.map_map]
    have hcong : ∀ p ∈ segmentGo 1 [] (w0 :: ws0),
        ((fun c => c.text.data.splitOn ' ') ∘ Prod.snd) p
          = (fun q : List Word × Cue => q.1.map (fun w => w.text.data)) p := by
      intro p hp
      obtain ⟨hne, hsub, _, _, htext⟩ := segmentGo_group_spec (w0 :: ws0) 1 [] p hp
      rw [List.nil_append] at hsub
      show p.2.text.data.splitOn ' ' = _
      rw [htext]
      exact cue_text_splits p.1 hne (fun x hx => hv x (hsub.subset hx))
    rw [List.map_congr_left hcong]
    have hsplit : (segmentGo 1 [] (w0 :: ws0)).map
          (fun q : List Word × Cue => q.1.map (fun w => w.text.data))
        = ((segmentGo 1 [] (w0 :: ws0)).map Prod.fst).map
            (List.map (fun w => w.text.data)) := by
      rw [List.map_map]
      rfl
    rw [hsplit, ← List.map_flatten]
    rw [segmentGo_flatten (w0 :: ws0) 1 [] (by simpa using hv)]
    rfl

/-- Witness for the amended C3 at the concrete `sampleWords` input. -/
theorem coverage_amended_witness :
    ValidWords sampleWords ∧
      ((cuesOf sampleWords).map (fun c => c.text.data.splitOn ' ')).flatten
        = sampleWords.map (fun w => w.text.data) :=
  ⟨by decide, coverage_amended sampleWords (by decide)⟩

end Captions

namespace Captions

theorem coordStep_inv {s s' : CoordState} {e : CoordEvent}
    (hinv : CoordInv s) (hstep : coordStep s e = some s') : CoordInv s' := by
  cases e with
  | arrive i =>
    simp only [coordStep] at hstep
    cases hs : s.status[i]? with
    | none =>
      rw [hs] at hstep
      exact absurd hstep (by simp)
    | some st =>
      rw [hs] at hstep
      cases st with
      | waiting => exact absurd hstep (by simp)
      | done r => exact absurd hstep (by simp)
      | pending =>
        cases hc : s.cached with
        | some r =>
          rw [hc] at hstep
          have hx := Option.some.inj hstep
          subst hx
          rcases hinv with ⟨_, _, hcn, _⟩ | ⟨_, _, hcn, _⟩ | ⟨hu, hf, r', hcr, hst⟩
          · rw [hcn] at hc; exact absurd hc (by simp)
          · rw [hcn] at hc; exact absurd hc (by simp)
          · right; right
            have hrr : r' = r := by
              rw [hcr] at hc; exact Option.some.inj hc
            subst hrr
            refine ⟨hu, hf, r', rfl, ?_⟩
            intro st hmem
            rcases List.mem_or_eq_of_mem_set hmem with h | h
            · exact hst st h
            · right; exact h
        | none =>
          rw [hc] at hstep
          cases hf : s.inflight with
          | true =>
            rw [hf, if_pos rfl] at hstep
            have hx := Option.some.inj hstep
            subst hx
            rcases hinv with ⟨_, hfn, _, _⟩ | ⟨hu, _, _, hst⟩ | ⟨_, hfn, r', hcr, _⟩
            · rw [hfn] at hf; exact absurd hf (by simp)
            · right; left
              refine ⟨hu, rfl, rfl, ?_⟩
              intro st hmem
              rcases List.mem_or_eq_of_mem_set hmem with h | h
              · exact hst st h
              · right; exact h
            · rw [hcr] at hc; exact absurd hc (by simp)
          | false =>
            rw [hf, if_neg Bool.false_ne_true] at hstep
            have hx := Option.some.inj hstep
            subst hx
            rcases hinv with ⟨hu, _, _, hst⟩ | ⟨_, hft, _, _⟩ | ⟨_, _, r', hcr, _⟩
            · right; left
              refine ⟨by simp [hu], rfl, rfl, ?_⟩
              intro st hmem
              simp only at hmem
              rcases List.mem_or_eq_of_mem_set hmem with h | h
              · left; exact hst st h
              · right; exact h
            · rw [hft] at hf; exact absurd hf (by simp)
            · rw [hcr] at hc; exact absurd hc (by simp)
  | complete r =>
    simp only [coordStep] at hstep
    cases hf : s.inflight with
    | false =>
      rw [hf, if_neg Bool.false_ne_true] at hstep
      exact absurd hstep (by simp)
    | true =>
      rw [hf, if_pos rfl] at hstep
      have hx := Option.some.inj hstep
      subst hx
      rcases hinv with ⟨_, hfn, _, _⟩ | ⟨hu, _, _, hst⟩ | ⟨_, hfn, r', _, _⟩
      · rw [hfn] at hf; exact absurd hf (by simp)
      · right; right
        refine ⟨hu, rfl, r, rfl, ?_⟩
        intro st hmem
        simp only at hmem
        obtain ⟨x, hx, hxs⟩ := List.mem_map.mp hmem
        rcases hst x hx with hp | hw
        · left
          rw [← hxs, hp]
          simp
        · right
          rw [← hxs, hw]
          simp
      · rw [hfn] at hf; exact absurd hf (by simp)

theorem coordRun_inv (es : List CoordEvent) : ∀ s s' : CoordState,
    CoordInv s → coordRun s es = some s' → CoordInv s' := by
  induction es with
  | nil =>
    intro s s' hinv hrun
    unfold coordRun at hrun
    rw [← Option.some.inj hrun]
    exact hinv
  | cons e es ih =>
    intro s s' hinv hrun
    unfold coordRun at hrun
    cases hstep : coordStep s e with
    | none => rw [hstep] at hrun; exact absurd hrun (by simp)
    | some s2 =>
      rw [hstep] at hrun
      exact ih s2 s' (coordStep_inv hinv hstep) hrun

theorem coordInit_inv (n : Nat) : CoordInv (coordInit n) := by
  left
  refine ⟨rfl, rfl, rfl, ?_⟩
  intro st hmem
  exact List.eq_of_mem_replicate hmem

/-- Claim C9: Single-flight (modelled from the spec, the backend coordinator
not being among the provided sources): starting from a state with no live
cache entry and `n ≥ 1` pending callers for one fingerprint, after any valid
interleaving of arrivals and completions in which every caller has finished,
exactly one upstream call has been made, the one call's result is cached,
and every caller received exactly that result. -/
theorem single_flight (n : Nat) (es : List CoordEvent) (s : CoordState)
    (hrun : coordRun (coordInit n) es = some s) (hn : 1 ≤ n)
    (hlen : s.status.length = n)
    (hall : ∀ st ∈ s.status,
      st ≠ CallerStatus.pending ∧ st ≠ CallerStatus.waiting) :
    s.upstreamCalls = 1 ∧
      ∃ r, s.cached = some r ∧ ∀ st ∈ s.status, st = CallerStatus.done r := by
  have hinv := coordRun_inv es (coordInit n) s (coordInit_inv n) hrun
  have hne : s.status ≠ [] := by
    intro hcon
    rw [hcon] at hlen
    simp at hlen
    omega
  obtain ⟨st0, hst0⟩ := List.exists_mem_of_ne_nil s.status hne
  rcases hinv with ⟨_, _, _, hst⟩ | ⟨_, _, _, hst⟩ | ⟨hu, _, r, hcr, hst⟩
  · exact absurd (hst st0 hst0) (hall st0 hst0).1
  · rcases hst st0 hst0 with h | h
    · exact absurd h (hall st0 hst0).1
    · exact absurd h (hall st0 hst0).2
  · refine ⟨hu, r, hcr, ?_⟩
    intro st hmem
    rcases hst st hmem with h | h
    · exact absurd h (hall st hmem).1
    · exact h

/-- Witness for C9: two concurrent callers and one completion — the run
computes, one upstream call is made, both callers get the result `7`. -/
theorem single_flight_witness :
    coordRun (coordInit 2)
        [CoordEvent.arrive 0, CoordEvent.arrive 1, CoordEvent.complete 7]
      = some ⟨some 7, false, [CallerStatus.done 7, CallerStatus.done 7], 1⟩ ∧
    (⟨some 7, false, [CallerStatus.done 7, CallerStatus.done 7], 1⟩
        : CoordState).upstreamCalls = 1 ∧
      ∃ r, (⟨some 7, false, [CallerStatus.done 7, CallerStatus.done 7], 1⟩
          : CoordState).cached = some r ∧
        ∀ st ∈ (⟨some 7, false, [CallerStatus.done 7, CallerStatus.done 7], 1⟩
            : CoordState).status, st = CallerStatus.done r :=
  ⟨by decide, single_flight 2
    [CoordEvent.arrive 0, CoordEvent.arrive 1, CoordEvent.complete 7]
    ⟨some 7, false, [CallerStatus.done 7, CallerStatus.done 7], 1⟩
    (by decide) (by decide) (by decide) (by decide)⟩

end Captions
